import Mathlib

/-!
Verification of the deduplication and link-resolution core of build.mjs.

The script processes a legacy HTML corpus: it fingerprints each
navigation-eligible page (FNV-1a 64 token hashes folded into a 64-bit
SimHash), groups candidate pages by their strict title, elects the longest
page of each group as canonical, classifies the remaining members as
duplicates via a Hamming-distance rule with a Jaccard fallback, emits a
navigation manifest and a dedupe report, and rewrites legacy
javascript:parent.Prt/Cts/Jmp pseudo-links to real relative paths.

This file is a shallow embedding of that core, translated function by
function from build.mjs.  JavaScript strings are modelled through their
UTF-16 code units (charCodeAt semantics), JavaScript BigInt arithmetic with
an explicit 64-bit mask is modelled on Nat with the same mask, JavaScript
Sets are modelled as Finset, and the number returned by the Jaccard
computation is modelled as a rational.
-/

namespace Accord07

/-- UTF-16 code units of one character, as JavaScript exposes them through
charCodeAt: one unit below 0x10000, otherwise a surrogate pair. -/
def utf16CodeUnits (c : Char) : List Nat :=
  let n := c.toNat
  if n < 0x10000 then [n]
  else [0xD800 + (n - 0x10000) / 0x400, 0xDC00 + (n - 0x10000) % 0x400]

/-- Sequence of charCodeAt values of a string. -/
def jsCharCodes (s : String) : List Nat :=
  (s.data.map utf16CodeUnits).flatten

/-- JavaScript string length (number of UTF-16 code units). -/
def jsStrLen (s : String) : Nat :=
  (jsCharCodes s).length

/-- FNV-1a 64-bit offset basis, the literal 0xcbf29ce484222325n of fnv1a64. -/
def fnvOffsetBasis : Nat := 0xcbf29ce484222325

/-- FNV-1a 64-bit prime, the literal 0x100000001b3n of fnv1a64. -/
def fnvPrime : Nat := 0x100000001b3

/-- The 64-bit mask 0xFFFFFFFFFFFFFFFFn applied after each multiplication. -/
def mask64 : Nat := 0xFFFFFFFFFFFFFFFF

/-- fnv1a64 from build.mjs: for each code unit, xor it into the hash and
multiply by the FNV prime, truncated to 64 bits. -/
def fnv1a64 (s : String) : Nat :=
  (jsCharCodes s).foldl (fun hash c => ((hash ^^^ c) * fnvPrime) &&& mask64) fnvOffsetBasis

/-- The signed accumulator of simhash64 for one bit position: walking the
token sequence, add 1 when bit i of the token hash is set, subtract 1
otherwise.  In build.mjs this is the cell v[i] after the token loop; the
two loops there are independent per index, so the per-index fold is the
same computation. -/
def simhashAcc (tokens : List String) (i : Nat) : Int :=
  tokens.foldl (fun v t => v + (if (fnv1a64 t).testBit i then 1 else -1)) 0

/-- simhash64 from build.mjs: bit i of the signature is set exactly when
accumulator i ended strictly positive. -/
def simhash64 (tokens : List String) : Nat :=
  (List.range 64).foldl
    (fun sig i => if 0 < simhashAcc tokens i then sig ||| (1 <<< i) else sig) 0

/-- One step of the Kernighan loop in hamming64: x &= (x - 1n) clears the
lowest set bit. -/
def clearLowBit (x : Nat) : Nat := x &&& (x - 1)

/-- The while loop of hamming64: count how many times the lowest set bit
can be cleared before reaching zero. -/
def popcnt (x : Nat) : Nat :=
  if h : x = 0 then 0 else popcnt (clearLowBit x) + 1
decreasing_by
  have h1 : clearLowBit x ≤ x - 1 := Nat.and_le_right
  have h2 : x - 1 < x := Nat.sub_lt (Nat.pos_of_ne_zero h) (by decide)
  exact Nat.lt_of_le_of_lt h1 h2

/-- Fuel-bounded version of the same loop, used to evaluate popcnt on
concrete inputs (the fuel never runs out once it is at least x). -/
def popcntFuel : Nat → Nat → Nat
  | 0, _ => 0
  | fuel + 1, x => if x = 0 then 0 else popcntFuel fuel (clearLowBit x) + 1

/-- hamming64 from build.mjs: popcount of the xor of the two signatures. -/
def hamming64 (a b : Nat) : Nat := popcnt (a ^^^ b)

/-- jaccard from build.mjs.  The JavaScript loop seeds a Set with aSet,
walks bSet counting hits (elements already present) and inserting, so for
set inputs inter is the intersection size and seen ends as the union; the
empty union is defined as fully similar. -/
def jaccard (aSet bSet : Finset String) : ℚ :=
  let inter := (aSet ∩ bSet).card
  let union := (aSet ∪ bSet).card
  if union = 0 then 1 else (inter : ℚ) / (union : ℚ)

/-- Split a character list at every character satisfying a predicate,
keeping empty pieces, exactly as JavaScript split with a one-character
separator does (the empty string splits to one empty piece). -/
def splitOnPred (p : Char → Bool) : List Char → List (List Char)
  | [] => [[]]
  | c :: rest =>
    let r := splitOnPred p rest
    if p c then [] :: r
    else
      match r with
      | [] => [[c]]
      | w :: ws => (c :: w) :: ws

/-- Join character-list pieces with a separator character between them. -/
def joinWithChar (sep : Char) : List (List Char) → List Char
  | [] => []
  | [w] => w
  | w :: ws => w ++ sep :: joinWithChar sep ws

/-- JavaScript text.split of a single space. -/
def jsSplitSpace (s : String) : List String :=
  (splitOnPred (fun c => c = ' ') s.data).map String.mk

/-- tokenize from build.mjs: split the normalized text on spaces and drop
tokens whose (UTF-16) length is at most 2. -/
def tokenize (text : String) : List String :=
  (jsSplitSpace text).filter (fun w => 2 < jsStrLen w)

/-- JavaScript String.prototype.trim: drop whitespace from both ends. -/
def jsTrim (s : String) : String :=
  String.mk (((s.data.dropWhile Char.isWhitespace).reverse.dropWhile Char.isWhitespace).reverse)

/-- headTitleStrict from build.mjs: the text of the first title element,
trimmed — and nothing more.  (The title text itself is passed in; DOM
extraction is outside this model.) -/
def headTitleStrict (titleText : String) : String := jsTrim titleText

/-- isMeaningfulTitle from build.mjs: the trimmed title is non-empty and
contains at least one letter or digit.  The Unicode character classes of
the regex are modelled on the alphanumeric characters the claims exercise. -/
def isMeaningfulTitle (s : String) : Bool :=
  let t := jsTrim s
  t ≠ "" && t.data.any (fun c => c.isAlpha || c.isDigit)

/-- Modelled from the spec: the spec describes the stored strict title as
normalized with whitespace runs collapsed and invisible (control)
characters stripped.  This definition follows those words: split on
whitespace and control characters, drop the empty runs, and rejoin with
single spaces. -/
def specNormalizeTitle (t : String) : String :=
  let pieces := (splitOnPred (fun c => c.isWhitespace || c.toNat < 32) t.data).filter (fun w => w ≠ [])
  String.mk (joinWithChar ' ' pieces)

/-- Candidate record pushed by build.mjs for every navigation-eligible
page (the dispTitle field is carried along but never read again by the
grouper). -/
structure Cand where
  path : String
  strictTitle : String
  dispTitle : String
  textLen : Nat
  simhash : Nat
deriving DecidableEq

/-- The candidate build.mjs pushes for a page with the given relative
path, raw title-element text, and normalized comparison text: the strict
title is the trimmed title text, textLen is the JavaScript length of the
normalized text, and the signature is the SimHash of its tokens.  (The
display-title fallback chain to a heading or the filename only matters for
pages with an empty title, which never become candidates.) -/
def mkCandidate (p titleText norm : String) : Cand :=
  { path := p
    strictTitle := headTitleStrict titleText
    dispTitle := headTitleStrict titleText
    textLen := jsStrLen norm
    simhash := simhash64 (tokenize norm) }

/-- One insertion step of the byTitle map of build.mjs (a JavaScript Map
keeps keys in insertion order, modelled as an association list). -/
def insertCand (m : List (String × List Cand)) (c : Cand) : List (String × List Cand) :=
  if m.any (fun kv => kv.1 = c.strictTitle) then
    m.map (fun kv => if kv.1 = c.strictTitle then (kv.1, kv.2 ++ [c]) else kv)
  else m ++ [(c.strictTitle, [c])]

/-- The byTitle map of build.mjs: candidates grouped by strict title, in
scan order. -/
def byTitle (cands : List Cand) : List (String × List Cand) :=
  cands.foldl insertCand []

/-- HAMMING_MAX from build.mjs. -/
def HAMMING_MAX : Nat := 3

/-- JACCARD_MIN from build.mjs (0.98). -/
def JACCARD_MIN : ℚ := 98 / 100

/-- The comparator b.textLen - a.textLen of the canonical-selection sort,
as the boolean order relation it induces (a sorts no later than b when the
comparator is non-positive).  JavaScript sort is stable, as is mergeSort. -/
def lenDescLe (a b : Cand) : Bool := b.textLen ≤ a.textLen

/-- The sort arr.sort((a,b) => b.textLen - a.textLen) of build.mjs. -/
def sortByLenDesc (arr : List Cand) : List Cand := arr.mergeSort lenDescLe

/-- The canonical member of a group: the first element after the
descending sort by text length. -/
def canonicalOf (arr : List Cand) : Option Cand := (sortByLenDesc arr).head?

/-- Which branch of the duplicate test fired for one member. -/
inductive DupRule
  | hammingRule
  | jaccardFallback
  | keptDistinct
deriving DecidableEq

/-- The per-member classification of build.mjs: a member is a duplicate of
the canonical when the Hamming distance of the signatures is at most
HAMMING_MAX, otherwise when the Jaccard similarity of the token sets read
back from the written pages is at least JACCARD_MIN.  The token sets of
the written pages are supplied as a read-only function of the path. -/
def dupRule (fileTokens : String → Finset String) (canonical cand : Cand) : DupRule :=
  if hamming64 canonical.simhash cand.simhash ≤ HAMMING_MAX then .hammingRule
  else if JACCARD_MIN ≤ jaccard (fileTokens canonical.path) (fileTokens cand.path) then .jaccardFallback
  else .keptDistinct

/-- The isDup flag of build.mjs. -/
def isDup (fileTokens : String → Finset String) (canonical cand : Cand) : Bool :=
  dupRule fileTokens canonical cand ≠ DupRule.keptDistinct

/-- The member loop of build.mjs: keep starts as the singleton canonical,
then every further member is appended to dupes or keep according to the
duplicate test. -/
def classifyRest (fileTokens : String → Finset String) (canonical : Cand) (rest : List Cand) :
    List Cand × List Cand :=
  rest.foldl
    (fun kd cand =>
      if isDup fileTokens canonical cand then (kd.1, kd.2 ++ [cand]) else (kd.1 ++ [cand], kd.2))
    ([canonical], [])

/-- One entry of the navigation manifest: { title, path, dup }. -/
structure NavItem where
  title : String
  path : String
  dup : Bool
deriving DecidableEq

/-- One record of the dedupe report: { title, kept, duplicates, reason }. -/
structure GroupReport where
  title : String
  kept : List String
  duplicates : List String
  reason : String
deriving DecidableEq

/-- The reason string of every report record, the template literal of
build.mjs with HAMMING_MAX = 3 and JACCARD_MIN = 0.98 interpolated. -/
def reasonStr : String := "HAMMING<=3 or JACCARD>=0.98"

/-- The body of the per-group loop of build.mjs: a singleton group
contributes its sole member (under a meaningful title); a larger group is
sorted descending by text length, its head becomes canonical, the rest is
classified against the canonical only, the manifest receives the kept
members then the duplicates (duplicates flagged, nothing dropped), and a
report record is emitted exactly when there is at least one duplicate. -/
def processGroup (fileTokens : String → Finset String) (title : String) (arr : List Cand) :
    List NavItem × List GroupReport :=
  if arr.length = 1 then
    (match arr with
     | [c] => if isMeaningfulTitle title then [⟨title, c.path, false⟩] else []
     | _ => [],
     [])
  else
    match sortByLenDesc arr with
    | [] => ([], [])
    | canonical :: rest =>
      let kd := classifyRest fileTokens canonical rest
      let keptNav := if isMeaningfulTitle title then kd.1.map (fun k => NavItem.mk title k.path false) else []
      let dupNav := if isMeaningfulTitle title then kd.2.map (fun d => NavItem.mk title d.path true) else []
      let reps :=
        if kd.2.isEmpty then []
        else [GroupReport.mk title (kd.1.map Cand.path) (kd.2.map Cand.path) reasonStr]
      (keptNav ++ dupNav, reps)

/-- candidateTargets from build.mjs: the fixed priority order of candidate
filenames tried for a Prt or Cts id. -/
def candidateTargets (id : String) : List String :=
  [id ++ ".html", id ++ "_PR.html", id ++ "_PR1.html", id ++ "_PR2.html"]

/-- Segment-stack step of POSIX path normalization: empty and dot segments
vanish, dot-dot pops the stack (or is kept at the top of a relative
path), anything else is pushed.  The stack is kept reversed. -/
def normStep (stack : List (List Char)) (seg : List Char) : List (List Char) :=
  if seg = [] || seg = ['.'] then stack
  else if seg = ['.', '.'] then
    match stack with
    | [] => [['.', '.']]
    | top :: rest => if top = ['.', '.'] then seg :: stack else rest
  else seg :: stack

/-- path.posix.normalize of build.mjs, for the relative slash paths the
corpus uses. -/
def posixNormalize (p : String) : String :=
  let segs := ((splitOnPred (fun c => c = '/') p.data).foldl normStep []).reverse
  if segs = [] then "." else String.mk (joinWithChar '/' segs)

/-- path.posix.dirname of build.mjs, for the relative file paths the
corpus uses: everything before the last slash, or dot when there is none. -/
def posixDirname (p : String) : String :=
  match (splitOnPred (fun c => c = '/') p.data).dropLast with
  | [] => "."
  | segs => String.mk (joinWithChar '/' segs)

/-- resolveRelative from build.mjs: join the href to the directory of the
current document and normalize. -/
def resolveRelative (fromRel hrefRel : String) : String :=
  posixNormalize (posixDirname fromRel ++ "/" ++ hrefRel)

/-- Parsed payload of a javascript:parent pseudo-link, the tagged variant
the href regexes of build.mjs recognize (the optional second Prt argument
is captured but never used). -/
inductive NavCall
  | Prt (id : String) (page : Option String)
  | Cts (id : String)
  | Jmp (id : String)
  | Unrecognized
deriving DecidableEq

/-- The candidate loop of build.mjs: the first candidate filename whose
resolution against the current directory is in the precomputed path set. -/
def findTarget (allPaths : List String) (rel id : String) : Option String :=
  (candidateTargets id).find? (fun cand => allPaths.contains (resolveRelative rel cand))

/-- The href rewriting of build.mjs: Prt and Cts resolve through the
candidate loop and fall back to the inert placeholder, Jmp and anything
unrecognized always become the placeholder. -/
def rewriteHref (allPaths : List String) (rel : String) (call : NavCall) : String :=
  match call with
  | .Prt id _ => (findTarget allPaths rel id).getD "#"
  | .Cts id => (findTarget allPaths rel id).getD "#"
  | .Jmp _ => "#"
  | .Unrecognized => "#"

/-- Modelled from the spec: the resolution order written out as the chain
of fixed-priority membership tests the spec describes, to be compared with
the candidate loop of the source. -/
def resolveSpecChain (allPaths : List String) (rel id : String) : String :=
  if allPaths.contains (resolveRelative rel (id ++ ".html")) then id ++ ".html"
  else if allPaths.contains (resolveRelative rel (id ++ "_PR.html")) then id ++ "_PR.html"
  else if allPaths.contains (resolveRelative rel (id ++ "_PR1.html")) then id ++ "_PR1.html"
  else if allPaths.contains (resolveRelative rel (id ++ "_PR2.html")) then id ++ "_PR2.html"
  else "#"

/-! ### Concrete example data used by the witnesses and counterexamples -/

/-- Example of the spec scenario: candidate with 500 characters of
normalized text. -/
def cand500 : Cand :=
  { path := "en/html/engine1.html"
    strictTitle := "Engine Removal Procedure"
    dispTitle := "Engine Removal Procedure"
    textLen := 500
    simhash := 0 }

/-- Example of the spec scenario: candidate with 480 characters of
normalized text, same title. -/
def cand480 : Cand :=
  { path := "en/html/engine2.html"
    strictTitle := "Engine Removal Procedure"
    dispTitle := "Engine Removal Procedure"
    textLen := 480
    simhash := 0 }

/-- Example candidate: page a1 with normalized text aaa bbb. -/
def candA1 : Cand := mkCandidate "en/html/a1.html" "TA" "aaa bbb"

/-- Example candidate: page a2 with the same normalized text aaa bbb. -/
def candA2 : Cand := mkCandidate "en/html/a2.html" "TA" "aaa bbb"

/-- Example candidate: page b1 with normalized text aaa aaa bbb (the
repeated token changes the SimHash but not the token set). -/
def candB1 : Cand := mkCandidate "en/html/b1.html" "TB" "aaa aaa bbb"

/-- Example candidate: page b2 with normalized text aaa bbb. -/
def candB2 : Cand := mkCandidate "en/html/b2.html" "TB" "aaa bbb"

/-- Token sets of the written pages of group A. -/
def fileTokensA : String → Finset String := fun _ => (tokenize "aaa bbb").toFinset

/-- Token sets of the written pages of group B, keyed by path. -/
def fileTokensB : String → Finset String := fun p =>
  if p = "en/html/b1.html" then (tokenize "aaa aaa bbb").toFinset else (tokenize "aaa bbb").toFinset

/-! ### Popcount: correctness of the Kernighan loop -/

theorem clearLowBit_lt {x : Nat} (h : x ≠ 0) : clearLowBit x < x := by
  have h1 : clearLowBit x ≤ x - 1 := Nat.and_le_right
  have h2 : x - 1 < x := Nat.sub_lt (Nat.pos_of_ne_zero h) (by decide)
  exact Nat.lt_of_le_of_lt h1 h2

theorem popcnt_zero : popcnt 0 = 0 := by
  simp [popcnt]

theorem popcnt_of_ne_zero {x : Nat} (h : x ≠ 0) : popcnt x = popcnt (clearLowBit x) + 1 := by
  rw [popcnt]
  simp [h]

theorem land_succ_double (y : Nat) : (2 * y + 1) &&& (2 * y) = 2 * y := by
  apply Nat.eq_of_testBit_eq
  intro i
  cases i with
  | zero =>
    simp only [Nat.testBit_and, Nat.testBit_zero]
    have h0 : 2 * y % 2 = 0 := by omega
    simp [h0]
  | succ n =>
    simp only [Nat.testBit_succ]
    have h1 : (2 * y + 1) / 2 = y := by omega
    have h2 : 2 * y / 2 = y := by omega
    rw [Nat.and_div_two, h1, h2, Nat.testBit_and]
    cases y.testBit n <;> simp

theorem land_double_pred {y : Nat} (hy : 0 < y) :
    (2 * y) &&& (2 * y - 1) = 2 * (y &&& (y - 1)) := by
  apply Nat.eq_of_testBit_eq
  intro i
  cases i with
  | zero =>
    simp only [Nat.testBit_and, Nat.testBit_zero]
    have h0 : 2 * y % 2 = 0 := by omega
    have h1 : 2 * (y &&& (y - 1)) % 2 = 0 := by omega
    simp [h0, h1]
  | succ n =>
    simp only [Nat.testBit_succ]
    have h1 : 2 * y / 2 = y := by omega
    have h2 : (2 * y - 1) / 2 = y - 1 := by omega
    have h3 : 2 * (y &&& (y - 1)) / 2 = y &&& (y - 1) := by omega
    rw [Nat.and_div_two, h1, h2, h3]

theorem popcnt_double (y : Nat) : popcnt (2 * y) = popcnt y := by
  induction y using Nat.strong_induction_on with
  | _ y ih =>
    rcases Nat.eq_zero_or_pos y with h | h
    · subst h; rfl
    · have hy2 : (2 * y) ≠ 0 := by omega
      have hy : y ≠ 0 := by omega
      rw [popcnt_of_ne_zero hy2, popcnt_of_ne_zero hy]
      have hstep : clearLowBit (2 * y) = 2 * clearLowBit y := by
        unfold clearLowBit
        exact land_double_pred h
      rw [hstep]
      rw [ih (clearLowBit y) (clearLowBit_lt hy)]

theorem popcnt_double_add_one (y : Nat) : popcnt (2 * y + 1) = popcnt y + 1 := by
  have h : (2 * y + 1) ≠ 0 := by omega
  rw [popcnt_of_ne_zero h]
  have hstep : clearLowBit (2 * y + 1) = 2 * y := by
    unfold clearLowBit
    have : 2 * y + 1 - 1 = 2 * y := by omega
    rw [this]
    exact land_succ_double y
  rw [hstep, popcnt_double]

theorem popcnt_le_of_lt_two_pow : ∀ (k x : Nat), x < 2 ^ k → popcnt x ≤ k := by
  intro k
  induction k with
  | zero =>
    intro x hx
    have : x = 0 := by simpa using hx
    simp [this, popcnt_zero]
  | succ n ih =>
    intro x hx
    have hhalf : x / 2 < 2 ^ n := by
      have := Nat.pow_succ 2 n
      omega
    rcases Nat.even_or_odd x with ⟨y, hy⟩ | ⟨y, hy⟩
    · have hy2 : x = 2 * y := by omega
      have hyy : y = x / 2 := by omega
      rw [hy2, popcnt_double, hyy]
      exact Nat.le_succ_of_le (ih _ hhalf)
    · have hyy : y = x / 2 := by omega
      rw [hy, popcnt_double_add_one, hyy]
      exact Nat.succ_le_succ (ih _ hhalf)

theorem popcnt_eq_zero_iff (x : Nat) : popcnt x = 0 ↔ x = 0 := by
  constructor
  · intro h
    by_contra hx
    rw [popcnt_of_ne_zero hx] at h
    omega
  · intro h
    simp [h, popcnt_zero]

theorem popcntFuel_eq_popcnt : ∀ (fuel x : Nat), x ≤ fuel → popcntFuel fuel x = popcnt x := by
  intro fuel
  induction fuel with
  | zero =>
    intro x hx
    have : x = 0 := by omega
    simp [this, popcntFuel, popcnt_zero]
  | succ n ih =>
    intro x hx
    by_cases h : x = 0
    · simp [h, popcntFuel, popcnt_zero]
    · have hlt : clearLowBit x < x := clearLowBit_lt h
      have : clearLowBit x ≤ n := by omega
      simp only [popcntFuel, h, if_false]
      rw [ih _ this, ← popcnt_of_ne_zero h]

theorem hamming64_eval (a b : Nat) : hamming64 a b = popcntFuel (a ^^^ b) (a ^^^ b) := by
  unfold hamming64
  exact (popcntFuel_eq_popcnt _ _ (Nat.le_refl _)).symm

/-! ### Range bounds for the hash and the signature -/

theorem fnvFold_lt :
    ∀ (l : List Nat) (acc : Nat), acc < 2 ^ 64 →
      l.foldl (fun hash c => ((hash ^^^ c) * fnvPrime) &&& mask64) acc < 2 ^ 64 := by
  intro l
  induction l with
  | nil => intro acc hacc; simpa using hacc
  | cons c rest ih =>
    intro acc hacc
    apply ih
    have h1 : ((acc ^^^ c) * fnvPrime) &&& mask64 ≤ mask64 := Nat.and_le_right
    have h2 : mask64 < 2 ^ 64 := by decide
    exact Nat.lt_of_le_of_lt h1 h2

theorem fnv1a64_lt (s : String) : fnv1a64 s < 2 ^ 64 := by
  unfold fnv1a64
  exact fnvFold_lt _ _ (by decide)

theorem orBitsFold_lt (P : Nat → Prop) [DecidablePred P] :
    ∀ (l : List Nat), (∀ i ∈ l, i < 64) →
      ∀ acc : Nat, acc < 2 ^ 64 →
        l.foldl (fun sig i => if P i then sig ||| (1 <<< i) else sig) acc < 2 ^ 64 := by
  intro l
  induction l with
  | nil => intro _ acc hacc; simpa using hacc
  | cons i rest ih =>
    intro hmem acc hacc
    have hi : i < 64 := hmem i (List.mem_cons_self i rest)
    have hrest : ∀ j ∈ rest, j < 64 := fun j hj => hmem j (List.mem_cons_of_mem i hj)
    simp only [List.foldl_cons]
    apply ih hrest
    by_cases hp : P i
    · simp only [hp, if_true]
      apply Nat.or_lt_two_pow hacc
      have : (1 : Nat) <<< i = 2 ^ i := by simp [Nat.shiftLeft_eq]
      rw [this]
      exact Nat.pow_lt_pow_right (by decide) hi
    · simpa [hp] using hacc

theorem simhash64_lt (tokens : List String) : simhash64 tokens < 2 ^ 64 := by
  unfold simhash64
  apply orBitsFold_lt
  · intro i hi
    simpa using List.mem_range.mp hi
  · decide

/-! ### Bit-level characterization of the signature fold -/

theorem orBitsFold_testBit (P : Nat → Prop) [DecidablePred P] :
    ∀ (l : List Nat) (acc : Nat) (j : Nat),
      (l.foldl (fun sig i => if P i then sig ||| (1 <<< i) else sig) acc).testBit j
        = (acc.testBit j || (decide (j ∈ l) && decide (P j))) := by
  intro l
  induction l with
  | nil => intro acc j; simp
  | cons i rest ih =>
    intro acc j
    simp only [List.foldl_cons]
    rw [ih]
    have hshift : ((1 : Nat) <<< i).testBit j = decide (i = j) := by
      rw [Nat.shiftLeft_eq, Nat.one_mul]
      exact Nat.testBit_two_pow
    by_cases hp : P i
    · simp only [hp, if_true, Nat.testBit_or, hshift]
      by_cases hij : j = i
      · subst hij; simp [hp]
      · have hne : ¬ (i = j) := fun h => hij h.symm
        simp [hne, hij]
    · simp only [hp, if_false]
      by_cases hij : j = i
      · subst hij; simp [hp]
      · simp [hij]

theorem testBit_simhash64 (tokens : List String) (j : Nat) :
    (simhash64 tokens).testBit j = (decide (j < 64) && decide (0 < simhashAcc tokens j)) := by
  unfold simhash64
  rw [orBitsFold_testBit (fun i => 0 < simhashAcc tokens i)]
  simp [List.mem_range]

theorem orBitsFold_congr (P Q : Nat → Prop) [DecidablePred P] [DecidablePred Q]
    (h : ∀ i, P i ↔ Q i) :
    ∀ (l : List Nat) (acc : Nat),
      l.foldl (fun sig i => if P i then sig ||| (1 <<< i) else sig) acc
        = l.foldl (fun sig i => if Q i then sig ||| (1 <<< i) else sig) acc := by
  intro l
  induction l with
  | nil => intro acc; rfl
  | cons i rest ih =>
    intro acc
    simp only [List.foldl_cons]
    by_cases hp : P i
    · have hq : Q i := (h i).mp hp
      simp only [hp, hq, if_true]
      exact ih _
    · have hq : ¬ Q i := fun hq => hp ((h i).mpr hq)
      simp only [hp, hq, if_false]
      exact ih _

theorem foldlAdd_eq_sum {α : Type} (g : α → Int) :
    ∀ (l : List α) (a : Int), l.foldl (fun v t => v + g t) a = a + (l.map g).sum := by
  intro l
  induction l with
  | nil => intro a; simp
  | cons t rest ih =>
    intro a
    simp only [List.foldl_cons, List.map_cons, List.sum_cons]
    rw [ih]
    ring

theorem simhashAcc_eq_sum (tokens : List String) (i : Nat) :
    simhashAcc tokens i
      = (tokens.map (fun t => if (fnv1a64 t).testBit i then (1 : Int) else -1)).sum := by
  unfold simhashAcc
  rw [foldlAdd_eq_sum]
  simp

/-! ### Evaluation of the two-element sort -/

theorem mergeSort_pair {α : Type} (le : α → α → Bool) (a b : α) :
    [a, b].mergeSort le = if le a b then [a, b] else [b, a] := by
  rw [List.mergeSort]
  simp [List.merge, List.splitInTwo, List.splitAt, List.splitAt.go]

theorem lenDescLe_trans (a b c : Cand) :
    lenDescLe a b = true → lenDescLe b c = true → lenDescLe a c = true := by
  simp only [lenDescLe, decide_eq_true_eq]
  omega

theorem lenDescLe_total (a b : Cand) : (lenDescLe a b || lenDescLe b a) = true := by
  simp only [lenDescLe, Bool.or_eq_true, decide_eq_true_eq]
  omega

/-! ### The member-classification fold -/

theorem classifyRest_foldl (ft : String → Finset String) (canonical : Cand) :
    ∀ (rest : List Cand) (k d : List Cand),
      rest.foldl
          (fun kd cand =>
            if isDup ft canonical cand then (kd.1, kd.2 ++ [cand]) else (kd.1 ++ [cand], kd.2))
          (k, d)
        = (k ++ rest.filter (fun c => !isDup ft canonical c),
           d ++ rest.filter (fun c => isDup ft canonical c)) := by
  intro rest
  induction rest with
  | nil => intro k d; simp
  | cons c cs ih =>
    intro k d
    simp only [List.foldl_cons]
    by_cases h : isDup ft canonical c
    · rw [if_pos h, ih]
      simp [List.filter_cons, h]
    · rw [if_neg h, ih]
      have hb : isDup ft canonical c = false := by simpa using h
      simp [List.filter_cons, hb]

theorem classifyRest_eq (ft : String → Finset String) (canonical : Cand) (rest : List Cand) :
    classifyRest ft canonical rest
      = (canonical :: rest.filter (fun c => !isDup ft canonical c),
         rest.filter (fun c => isDup ft canonical c)) := by
  unfold classifyRest
  rw [classifyRest_foldl]
  simp

/-! ### The grouping map: keys are distinct, each group is exactly the
scan-order filter of the candidates carrying its title -/

theorem byTitle_append (cands : List Cand) (c : Cand) :
    byTitle (cands ++ [c]) = insertCand (byTitle cands) c := by
  unfold byTitle
  rw [List.foldl_append]
  rfl

theorem byTitle_inv (cands : List Cand) :
    (byTitle cands).Pairwise (fun x y => x.1 ≠ y.1)
      ∧ (∀ kg ∈ byTitle cands, kg.2 = cands.filter (fun c => c.strictTitle = kg.1))
      ∧ (∀ c ∈ cands, ∃ kg ∈ byTitle cands, kg.1 = c.strictTitle) := by
  induction cands using List.reverseRecOn with
  | nil => simp [byTitle]
  | append_singleton l c ih =>
    obtain ⟨ihP, ihF, ihC⟩ := ih
    rw [byTitle_append]
    unfold insertCand
    by_cases hany : (byTitle l).any (fun kv => kv.1 = c.strictTitle)
    · rw [if_pos hany]
      refine ⟨?_, ?_, ?_⟩
      · have hkey : ∀ kv : String × List Cand,
            (if kv.1 = c.strictTitle then (kv.1, kv.2 ++ [c]) else kv).1 = kv.1 := by
          intro kv
          by_cases h : kv.1 = c.strictTitle <;> simp [h]
        rw [List.pairwise_map]
        refine ihP.imp_of_mem ?_
        intro x y _ _ hxy
        rw [hkey, hkey]
        exact hxy
      · intro kg hkg
        rw [List.mem_map] at hkg
        obtain ⟨kv, hkv, hkveq⟩ := hkg
        by_cases hk : kv.1 = c.strictTitle
        · rw [if_pos hk] at hkveq
          subst hkveq
          simp only [List.filter_append, List.filter_cons, List.filter_nil]
          rw [← ihF kv hkv]
          simp [hk.symm]
        · rw [if_neg hk] at hkveq
          subst hkveq
          simp only [List.filter_append, List.filter_cons, List.filter_nil]
          rw [← ihF kv hkv]
          have : ¬ (c.strictTitle = kv.1) := fun h => hk h.symm
          simp [this]
      · intro c2 hc2
        rw [List.mem_append] at hc2
        rcases hc2 with hc2 | hc2
        · obtain ⟨kg, hkg, hkgeq⟩ := ihC c2 hc2
          by_cases hk : kg.1 = c.strictTitle
          · exact ⟨(kg.1, kg.2 ++ [c]), List.mem_map.mpr ⟨kg, hkg, by simp [hk]⟩, hkgeq⟩
          · exact ⟨kg, List.mem_map.mpr ⟨kg, hkg, by simp [hk]⟩, hkgeq⟩
        · rw [List.mem_singleton] at hc2
          rw [hc2]
          rw [List.any_eq_true] at hany
          obtain ⟨kv, hkv, hkveq⟩ := hany
          rw [decide_eq_true_eq] at hkveq
          exact ⟨(kv.1, kv.2 ++ [c]), List.mem_map.mpr ⟨kv, hkv, by simp [hkveq]⟩, hkveq⟩
    · rw [if_neg hany]
      have hnone : ∀ kv ∈ byTitle l, kv.1 ≠ c.strictTitle := by
        intro kv hkv
        by_contra heq
        apply hany
        rw [List.any_eq_true]
        exact ⟨kv, hkv, by simp [heq]⟩
      have hfilter : l.filter (fun c2 => c2.strictTitle = c.strictTitle) = [] := by
        rw [List.filter_eq_nil_iff]
        intro c2 hc2
        obtain ⟨kg, hkg, hkgeq⟩ := ihC c2 hc2
        simp only [decide_eq_true_eq]
        intro heq
        exact hnone kg hkg (hkgeq.symm ▸ heq ▸ rfl)
      refine ⟨?_, ?_, ?_⟩
      · rw [List.pairwise_append]
        refine ⟨ihP, by simp, ?_⟩
        intro x hx y hy
        rw [List.mem_singleton] at hy
        subst hy
        exact hnone x hx
      · intro kg hkg
        rw [List.mem_append] at hkg
        rcases hkg with hkg | hkg
        · rw [List.filter_append, ← ihF kg hkg]
          have : ¬ (c.strictTitle = kg.1) := fun h => hnone kg hkg h.symm
          simp [List.filter_cons, this]
        · rw [List.mem_singleton] at hkg
          subst hkg
          simp only [List.filter_append, List.filter_cons, List.filter_nil]
          rw [hfilter]
          simp
      · intro c2 hc2
        rw [List.mem_append] at hc2
        rcases hc2 with hc2 | hc2
        · obtain ⟨kg, hkg, hkgeq⟩ := ihC c2 hc2
          exact ⟨kg, List.mem_append_left _ hkg, hkgeq⟩
        · rw [List.mem_singleton] at hc2
          rw [hc2]
          exact ⟨(c.strictTitle, [c]), List.mem_append_right _ (List.mem_singleton.mpr rfl), rfl⟩

/-! ### Further shared helper lemmas -/

theorem hamming64_self (a : Nat) : hamming64 a a = 0 := by
  unfold hamming64
  rw [Nat.xor_self]
  exact popcnt_zero

theorem jaccard_self (s : Finset String) : jaccard s s = 1 := by
  unfold jaccard
  simp only [Finset.inter_self, Finset.union_self]
  by_cases h : s.card = 0
  · simp [h]
  · rw [if_neg h]
    rw [div_self]
    exact Nat.cast_ne_zero.mpr h

theorem processGroup_cons (ft : String → Finset String) (title : String) (arr : List Cand)
    (canonical : Cand) (rest : List Cand)
    (hlen : arr.length ≠ 1) (hsort : sortByLenDesc arr = canonical :: rest)
    (hm : isMeaningfulTitle title = true) :
    processGroup ft title arr
      = ((canonical :: rest.filter (fun c => !isDup ft canonical c)).map
            (fun k => NavItem.mk title k.path false)
          ++ (rest.filter (fun c => isDup ft canonical c)).map
            (fun d => NavItem.mk title d.path true),
         if (rest.filter (fun c => isDup ft canonical c)).isEmpty then []
         else
           [GroupReport.mk title
              ((canonical :: rest.filter (fun c => !isDup ft canonical c)).map Cand.path)
              ((rest.filter (fun c => isDup ft canonical c)).map Cand.path)
              reasonStr]) := by
  unfold processGroup
  rw [if_neg hlen, hsort]
  dsimp only
  rw [classifyRest_eq]
  simp [hm]

/-! ### Claim theorems -/

/-- C1: for every token sequence, bit i of the 64-bit SimHash fingerprint
is 1 exactly when the signed accumulator for position i — incremented for
each token whose hash has bit i set, decremented otherwise, over the whole
sequence — is strictly greater than 0; an accumulator of exactly 0 yields
bit 0; and the fingerprint is a deterministic function of the token
sequence. -/
theorem C1_simhash_bit_iff (tokens : List String) (i : Nat) (hi : i < 64) :
    ((simhash64 tokens).testBit i = true ↔ 0 < simhashAcc tokens i)
      ∧ (simhashAcc tokens i = 0 → (simhash64 tokens).testBit i = false)
      ∧ ∀ tokens2, tokens = tokens2 → simhash64 tokens = simhash64 tokens2 := by
  refine ⟨?_, ?_, ?_⟩
  · rw [testBit_simhash64]
    simp [hi]
  · intro h
    rw [testBit_simhash64, h]
    simp
  · intro tokens2 h
    rw [h]

/-- Witness for C1 at the token list containing abc and bit 0. -/
theorem C1_simhash_bit_iff_witness :
    (((simhash64 ["abc"]).testBit 0 = true ↔ 0 < simhashAcc ["abc"] 0)
      ∧ (simhashAcc ["abc"] 0 = 0 → (simhash64 ["abc"]).testBit 0 = false)
      ∧ ∀ tokens2, ["abc"] = tokens2 → simhash64 ["abc"] = simhash64 tokens2) :=
  C1_simhash_bit_iff ["abc"] 0 (by decide)

/-- C6: the SimHash fingerprint is invariant under permutation of the
token list — it is a pure function of the token multiset — because every
token contributes an order-independent increment or decrement to each
per-bit accumulator. -/
theorem C6_simhash_perm_invariant (t1 t2 : List String) (h : t1.Perm t2) :
    simhash64 t1 = simhash64 t2 := by
  have hacc : ∀ i, simhashAcc t1 i = simhashAcc t2 i := by
    intro i
    rw [simhashAcc_eq_sum, simhashAcc_eq_sum]
    exact (h.map _).sum_eq
  unfold simhash64
  exact orBitsFold_congr _ _ (fun i => by rw [hacc i]) _ _

/-- Witness for C6 at a two-token swap. -/
theorem C6_simhash_perm_invariant_witness :
    simhash64 ["aaa", "bbb"] = simhash64 ["bbb", "aaa"] :=
  C6_simhash_perm_invariant _ _ (List.Perm.swap "bbb" "aaa" [])

/-- C9: fnv1a64 and simhash64 always return values below 2 to the 64, and
on such fingerprints hamming64 terminates with a count between 0 and 64,
is symmetric, and is 0 exactly when the fingerprints are equal. -/
theorem C9_fingerprint_bounds (s : String) (tokens : List String) (a b : Nat)
    (ha : a < 2 ^ 64) (hb : b < 2 ^ 64) :
    fnv1a64 s < 2 ^ 64
      ∧ simhash64 tokens < 2 ^ 64
      ∧ hamming64 a b ≤ 64
      ∧ hamming64 a b = hamming64 b a
      ∧ (hamming64 a b = 0 ↔ a = b) := by
  refine ⟨fnv1a64_lt s, simhash64_lt tokens, ?_, ?_, ?_⟩
  · unfold hamming64
    exact popcnt_le_of_lt_two_pow 64 _ (Nat.xor_lt_two_pow ha hb)
  · unfold hamming64
    rw [Nat.xor_comm]
  · unfold hamming64
    rw [popcnt_eq_zero_iff]
    exact Nat.xor_eq_zero

/-- Witness for C9 at the string abc, the token list with abc, and the
fingerprints 5 and 9. -/
theorem C9_fingerprint_bounds_witness :
    fnv1a64 "abc" < 2 ^ 64
      ∧ simhash64 ["abc"] < 2 ^ 64
      ∧ hamming64 5 9 ≤ 64
      ∧ hamming64 5 9 = hamming64 9 5
      ∧ (hamming64 5 9 = 0 ↔ 5 = 9) :=
  C9_fingerprint_bounds "abc" ["abc"] 5 9 (by decide) (by decide)

/-- C5: jaccard equals intersection size over union size, two empty sets
are fully similar by definition (no division error), and every set is
fully similar to itself. -/
theorem C5_jaccard_spec (a b : Finset String) (hne : a ∪ b ≠ ∅) :
    jaccard a b = ((a ∩ b).card : ℚ) / ((a ∪ b).card : ℚ)
      ∧ (∀ s : Finset String, jaccard s s = 1)
      ∧ jaccard (∅ : Finset String) ∅ = 1 := by
  refine ⟨?_, jaccard_self, ?_⟩
  · unfold jaccard
    have h : (a ∪ b).card ≠ 0 := by
      rw [Ne, Finset.card_eq_zero]
      exact hne
    rw [if_neg h]
  · unfold jaccard
    simp

/-- Witness for C5 at a singleton and the empty set. -/
theorem C5_jaccard_spec_witness :
    jaccard {"x"} ∅ = ((({"x"} : Finset String) ∩ ∅).card : ℚ) / ((({"x"} : Finset String) ∪ ∅).card : ℚ)
      ∧ (∀ s : Finset String, jaccard s s = 1)
      ∧ jaccard (∅ : Finset String) ∅ = 1 :=
  C5_jaccard_spec {"x"} ∅ (by decide)

/-- C10: the empty normalized text tokenizes to the empty token list and
receives fingerprint 0, so two candidates built from empty normalized
text have Hamming distance 0 and are classified duplicates by the
fingerprint rule — the Jaccard fallback (whatever token sets it would
read) is never consulted. -/
theorem C10_empty_text_duplicates (p q pt qt : String) (fileTokens : String → Finset String) :
    tokenize "" = []
      ∧ simhash64 (tokenize "") = 0
      ∧ (mkCandidate p pt "").simhash = 0
      ∧ hamming64 (mkCandidate p pt "").simhash (mkCandidate q qt "").simhash = 0
      ∧ dupRule fileTokens (mkCandidate p pt "") (mkCandidate q qt "") = DupRule.hammingRule := by
  have ht : tokenize "" = [] := by decide
  have hs : simhash64 (tokenize "") = 0 := by decide
  have hc : ∀ r rt : String, (mkCandidate r rt "").simhash = 0 := by
    intro r rt
    simp only [mkCandidate]
    exact hs
  have hham : hamming64 (mkCandidate p pt "").simhash (mkCandidate q qt "").simhash = 0 := by
    rw [hc, hc]
    exact hamming64_self 0
  refine ⟨ht, hs, hc p pt, hham, ?_⟩
  unfold dupRule
  rw [if_pos]
  rw [hham]
  exact Nat.zero_le _

/-- C2: for every group of more than one member, the grouper sorts the
members descending by normalized-text length and elects the head of the
sorted list — a member of maximal text length among the whole group — as
canonical; in the spec scenario of member lengths 480 and 500 the
500-character document is the canonical one. -/
theorem C2_canonical_longest (arr : List Cand) (h : 1 < arr.length) :
    (∃ canonical rest, sortByLenDesc arr = canonical :: rest
      ∧ canonicalOf arr = some canonical
      ∧ canonical ∈ arr
      ∧ (∀ c ∈ arr, c.textLen ≤ canonical.textLen)
      ∧ (sortByLenDesc arr).Pairwise (fun a b => b.textLen ≤ a.textLen))
    ∧ canonicalOf [cand480, cand500] = some cand500 := by
  constructor
  · have hperm : (sortByLenDesc arr).Perm arr := List.mergeSort_perm arr lenDescLe
    have hsorted : (sortByLenDesc arr).Pairwise (fun a b => lenDescLe a b = true) :=
      List.sorted_mergeSort lenDescLe_trans lenDescLe_total arr
    have hlen : (sortByLenDesc arr).length = arr.length := hperm.length_eq
    cases hs : sortByLenDesc arr with
    | nil =>
      rw [hs] at hlen
      simp at hlen
      omega
    | cons canonical rest =>
      rw [hs] at hperm hsorted
      refine ⟨canonical, rest, rfl, ?_, ?_, ?_, ?_⟩
      · unfold canonicalOf
        rw [hs]
        rfl
      · exact hperm.mem_iff.mp (List.mem_cons_self _ _)
      · intro c hc
        have hcs : c ∈ canonical :: rest := hperm.mem_iff.mpr hc
        rcases List.mem_cons.mp hcs with hceq | hcr
        · rw [hceq]
        · have := (List.pairwise_cons.mp hsorted).1 c hcr
          simpa [lenDescLe] using this
      · refine hsorted.imp ?_
        intro a b hab
        simpa [lenDescLe] using hab
  · unfold canonicalOf sortByLenDesc
    rw [mergeSort_pair]
    have hfalse : lenDescLe cand480 cand500 = false := by decide
    rw [hfalse]
    simp

/-- Witness for C2 at the two-member group of the spec scenario. -/
theorem C2_canonical_longest_witness :
    ((∃ canonical rest, sortByLenDesc [cand480, cand500] = canonical :: rest
      ∧ canonicalOf [cand480, cand500] = some canonical
      ∧ canonical ∈ [cand480, cand500]
      ∧ (∀ c ∈ [cand480, cand500], c.textLen ≤ canonical.textLen)
      ∧ (sortByLenDesc [cand480, cand500]).Pairwise (fun a b => b.textLen ≤ a.textLen))
    ∧ canonicalOf [cand480, cand500] = some cand500) :=
  C2_canonical_longest [cand480, cand500] (by decide)

/-- C3: for every group processed under its meaningful title, the manifest
receives exactly one entry per member — the entry paths are a permutation
of the member paths, every entry carries the group title, duplicates are
only flagged and never removed — and any report record lists as
duplicates exactly the paths of the entries flagged duplicate and as kept
the paths of the remaining entries. -/
theorem C3_group_manifest (ft : String → Finset String) (title : String) (arr : List Cand)
    (hm : isMeaningfulTitle title = true) (hne : arr ≠ []) :
    ((processGroup ft title arr).1.map NavItem.path).Perm (arr.map Cand.path)
      ∧ (processGroup ft title arr).1.length = arr.length
      ∧ (∀ it ∈ (processGroup ft title arr).1, it.title = title)
      ∧ (∀ r ∈ (processGroup ft title arr).2,
          r.duplicates
              = ((processGroup ft title arr).1.filter (fun it => it.dup)).map NavItem.path
            ∧ r.kept
              = ((processGroup ft title arr).1.filter (fun it => !it.dup)).map NavItem.path) := by
  by_cases hlen : arr.length = 1
  · obtain ⟨c, hc⟩ : ∃ c, arr = [c] := by
      cases arr with
      | nil => simp at hlen
      | cons x xs =>
        cases xs with
        | nil => exact ⟨x, rfl⟩
        | cons y ys => simp at hlen
    subst hc
    refine ⟨?_, ?_, ?_, ?_⟩ <;> simp [processGroup, hm]
  · cases hs : sortByLenDesc arr with
    | nil =>
      exfalso
      have hperm : (sortByLenDesc arr).Perm arr := List.mergeSort_perm arr lenDescLe
      rw [hs] at hperm
      have : arr.length = 0 := by simpa using hperm.length_eq.symm
      exact hne (List.length_eq_zero.mp this)
    | cons canonical rest =>
      have hperm : (canonical :: rest).Perm arr := by
        have hp : (sortByLenDesc arr).Perm arr := List.mergeSort_perm arr lenDescLe
        rw [hs] at hp
        exact hp
      rw [processGroup_cons ft title arr canonical rest hlen hs hm]
      have hfilterPerm :
          (rest.filter (fun c => !isDup ft canonical c)
            ++ rest.filter (fun c => isDup ft canonical c)).Perm rest := by
        have hcongr :
            rest.filter (fun c => !(!isDup ft canonical c)) = rest.filter (fun c => isDup ft canonical c) := by
          apply List.filter_congr
          intro c _
          simp
        have := List.filter_append_perm (fun c => !isDup ft canonical c) rest
        rw [hcongr] at this
        exact this
      have hmemPerm :
          (canonical :: (rest.filter (fun c => !isDup ft canonical c)
            ++ rest.filter (fun c => isDup ft canonical c))).Perm arr :=
        (hfilterPerm.cons canonical).trans hperm
      refine ⟨?_, ?_, ?_, ?_⟩
      · simp only [List.map_append, List.map_map]
        have heq :
            ((canonical :: rest.filter (fun c => !isDup ft canonical c)).map
                (NavItem.path ∘ fun k => NavItem.mk title k.path false)
              ++ (rest.filter (fun c => isDup ft canonical c)).map
                (NavItem.path ∘ fun d => NavItem.mk title d.path true))
              = (canonical :: (rest.filter (fun c => !isDup ft canonical c)
                  ++ rest.filter (fun c => isDup ft canonical c))).map Cand.path := by
          simp only [List.map_cons, List.map_append]
          rfl
        rw [heq]
        exact hmemPerm.map Cand.path
      · have hlens := hfilterPerm.length_eq
        have harr := hperm.length_eq
        simp only [List.length_append, List.length_map, List.length_cons] at hlens harr ⊢
        omega
      · intro it hit
        rcases List.mem_append.mp hit with hin | hin <;>
          · rcases List.mem_map.mp hin with ⟨c, _, hceq⟩
            rw [← hceq]
      · have hkeptFilterDup :
            ∀ (l : List Cand),
              ((l.map (fun k => NavItem.mk title k.path false)).filter (fun it => it.dup)) = [] := by
          intro l
          rw [List.filter_map]
          have : (l.filter ((fun it : NavItem => it.dup) ∘ fun k => NavItem.mk title k.path false)) = [] := by
            rw [List.filter_eq_nil_iff]
            intro a _
            simp [Function.comp]
          rw [this]
          rfl
        have hdupFilterDup :
            ∀ (l : List Cand),
              ((l.map (fun d => NavItem.mk title d.path true)).filter (fun it => it.dup))
                = l.map (fun d => NavItem.mk title d.path true) := by
          intro l
          rw [List.filter_eq_self]
          intro a ha
          rcases List.mem_map.mp ha with ⟨c, _, hceq⟩
          rw [← hceq]
        have hkeptFilterNot :
            ∀ (l : List Cand),
              ((l.map (fun k => NavItem.mk title k.path false)).filter (fun it => !it.dup))
                = l.map (fun k => NavItem.mk title k.path false) := by
          intro l
          rw [List.filter_eq_self]
          intro a ha
          rcases List.mem_map.mp ha with ⟨c, _, hceq⟩
          rw [← hceq]
          rfl
        have hdupFilterNot :
            ∀ (l : List Cand),
              ((l.map (fun d => NavItem.mk title d.path true)).filter (fun it => !it.dup)) = [] := by
          intro l
          rw [List.filter_map]
          have : (l.filter ((fun it : NavItem => !it.dup) ∘ fun d => NavItem.mk title d.path true)) = [] := by
            rw [List.filter_eq_nil_iff]
            intro a _
            simp [Function.comp]
          rw [this]
          rfl
        split
        · intro r hr
          simp at hr
        · intro r hr
          rw [List.mem_singleton] at hr
          subst hr
          constructor
          · simp only [List.filter_append, hkeptFilterDup, hdupFilterDup, List.nil_append,
              List.map_map]
            simp [Function.comp]
          · simp only [List.filter_append, hkeptFilterNot, hdupFilterNot, List.append_nil,
              List.map_map]
            simp [Function.comp]

/-- Witness for C3 at a concrete two-member group. -/
theorem C3_group_manifest_witness :
    ((processGroup fileTokensA "TA" [candA1, candA2]).1.map NavItem.path).Perm
        ([candA1, candA2].map Cand.path)
      ∧ (processGroup fileTokensA "TA" [candA1, candA2]).1.length = [candA1, candA2].length
      ∧ (∀ it ∈ (processGroup fileTokensA "TA" [candA1, candA2]).1, it.title = "TA")
      ∧ (∀ r ∈ (processGroup fileTokensA "TA" [candA1, candA2]).2,
          r.duplicates
              = ((processGroup fileTokensA "TA" [candA1, candA2]).1.filter
                  (fun it => it.dup)).map NavItem.path
            ∧ r.kept
              = ((processGroup fileTokensA "TA" [candA1, candA2]).1.filter
                  (fun it => !it.dup)).map NavItem.path) :=
  C3_group_manifest fileTokensA "TA" [candA1, candA2] (by decide) (by decide)

/-- C4: for every Prt or Cts call the rewritten href equals the
fixed-priority chain of the spec — try id.html, id_PR.html, id_PR1.html,
id_PR2.html resolved against the current directory of the document and
take the first candidate present in the path set, else the inert
placeholder — and in a directory holding only ABC123_PR1.html the call
Prt ABC123 resolves to ABC123_PR1.html. -/
theorem C4_priority_resolution (allPaths : List String) (rel id : String) (page : Option String) :
    rewriteHref allPaths rel (NavCall.Prt id page) = resolveSpecChain allPaths rel id
      ∧ rewriteHref allPaths rel (NavCall.Cts id) = resolveSpecChain allPaths rel id
      ∧ rewriteHref ["en/html/ABC123_PR1.html"] "en/html/doc.html" (NavCall.Prt "ABC123" none)
          = "ABC123_PR1.html" := by
  have key : (findTarget allPaths rel id).getD "#" = resolveSpecChain allPaths rel id := by
    unfold findTarget candidateTargets resolveSpecChain
    by_cases h1 : resolveRelative rel (id ++ ".html") ∈ allPaths <;>
      by_cases h2 : resolveRelative rel (id ++ "_PR.html") ∈ allPaths <;>
        by_cases h3 : resolveRelative rel (id ++ "_PR1.html") ∈ allPaths <;>
          by_cases h4 : resolveRelative rel (id ++ "_PR2.html") ∈ allPaths <;>
            simp [List.find?, h1, h2, h3, h4]
  exact ⟨key, key, by decide⟩

/-- C7 counterexample: the strict title stored for a candidate whose
title element text holds a doubled interior space keeps that doubled
space, while the normalization the claim describes collapses it. -/
theorem C7_title_not_normalized :
    (mkCandidate "en/html/x.html" "A  B" "").strictTitle ≠ specNormalizeTitle "A  B"
      ∧ (mkCandidate "en/html/x.html" "A  B" "").strictTitle = "A  B"
      ∧ specNormalizeTitle "A  B" = "A B" := by
  refine ⟨by decide, by decide, by decide⟩

/-- C7 amended: the strictTitle stored in every candidate is the title
element text merely trimmed at both ends — interior whitespace runs are
preserved and nothing else is stripped — and the grouper keys exactly on
this trimmed title: every group of the byTitle map is precisely the
scan-order filter of the candidates bearing its key. -/
theorem C7_grouping_by_trimmed_title (cands : List Cand) (kg : String × List Cand)
    (h : kg ∈ byTitle cands) :
    kg.2 = cands.filter (fun c => c.strictTitle = kg.1)
      ∧ ∀ p titleText norm, (mkCandidate p titleText norm).strictTitle = jsTrim titleText :=
  ⟨(byTitle_inv cands).2.1 kg h, fun _ _ _ => rfl⟩

/-- Witness for C7 at a concrete two-candidate corpus. -/
theorem C7_grouping_by_trimmed_title_witness :
    ("TA", [candA1, candA2]).2
        = [candA1, candA2].filter (fun c => c.strictTitle = ("TA", [candA1, candA2]).1)
      ∧ ∀ p titleText norm, (mkCandidate p titleText norm).strictTitle = jsTrim titleText :=
  C7_grouping_by_trimmed_title [candA1, candA2] ("TA", [candA1, candA2]) (by decide)

/-! ### Evaluation of the two concrete groups used for the report claims -/

theorem dupRuleA_eval : dupRule fileTokensA candA1 candA2 = DupRule.hammingRule := by
  unfold dupRule
  have hss : candA1.simhash = candA2.simhash := by decide
  rw [hss, hamming64_self]
  simp [HAMMING_MAX]

theorem dupRuleB_eval : dupRule fileTokensB candB1 candB2 = DupRule.jaccardFallback := by
  unfold dupRule
  have hham : hamming64 candB1.simhash candB2.simhash = 20 := by
    rw [hamming64_eval]
    decide
  rw [hham]
  rw [if_neg (by norm_num [HAMMING_MAX])]
  have hsets : fileTokensB candB1.path = fileTokensB candB2.path := by decide
  rw [hsets, jaccard_self]
  rw [if_pos (by norm_num [JACCARD_MIN])]

theorem sortA_eval : sortByLenDesc [candA1, candA2] = [candA1, candA2] := by
  unfold sortByLenDesc
  rw [mergeSort_pair]
  have h : lenDescLe candA1 candA2 = true := by decide
  rw [h]
  simp

theorem sortB_eval : sortByLenDesc [candB1, candB2] = [candB1, candB2] := by
  unfold sortByLenDesc
  rw [mergeSort_pair]
  have h : lenDescLe candB1 candB2 = true := by decide
  rw [h]
  simp

theorem procA_eval :
    processGroup fileTokensA "TA" [candA1, candA2]
      = ([NavItem.mk "TA" candA1.path false, NavItem.mk "TA" candA2.path true],
         [GroupReport.mk "TA" [candA1.path] [candA2.path] reasonStr]) := by
  rw [processGroup_cons fileTokensA "TA" [candA1, candA2] candA1 [candA2]
    (by decide) sortA_eval (by decide)]
  have hdup : isDup fileTokensA candA1 candA2 = true := by
    simp [isDup, dupRuleA_eval]
  simp [hdup]

theorem procB_eval :
    processGroup fileTokensB "TB" [candB1, candB2]
      = ([NavItem.mk "TB" candB1.path false, NavItem.mk "TB" candB2.path true],
         [GroupReport.mk "TB" [candB1.path] [candB2.path] reasonStr]) := by
  rw [processGroup_cons fileTokensB "TB" [candB1, candB2] candB1 [candB2]
    (by decide) sortB_eval (by decide)]
  have hdup : isDup fileTokensB candB1 candB2 = true := by
    simp [isDup, dupRuleB_eval]
  simp [hdup]

/-- C8 counterexample: one concrete group whose sole duplicate is
classified by the fingerprint rule and one whose sole duplicate is
classified by the Jaccard fallback produce report records with the
identical constant reason string — the recorded reason does not
distinguish which rule fired, and in particular the fingerprint-rule
record does not carry a Hamming-specific reason. -/
theorem C8_reason_not_distinguishing :
    dupRule fileTokensA candA1 candA2 = DupRule.hammingRule
      ∧ dupRule fileTokensB candB1 candB2 = DupRule.jaccardFallback
      ∧ (processGroup fileTokensA "TA" [candA1, candA2]).2
          = [GroupReport.mk "TA" [candA1.path] [candA2.path] "HAMMING<=3 or JACCARD>=0.98"]
      ∧ (processGroup fileTokensB "TB" [candB1, candB2]).2
          = [GroupReport.mk "TB" [candB1.path] [candB2.path] "HAMMING<=3 or JACCARD>=0.98"]
      ∧ (processGroup fileTokensA "TA" [candA1, candA2]).2.map GroupReport.reason
          = (processGroup fileTokensB "TB" [candB1, candB2]).2.map GroupReport.reason := by
  refine ⟨dupRuleA_eval, dupRuleB_eval, ?_, ?_, ?_⟩
  · rw [procA_eval]
    rfl
  · rw [procB_eval]
    rfl
  · rw [procA_eval, procB_eval]
    rfl

/-- C8 amended: every emitted report record carries the one constant
reason string naming both active thresholds; the record does not say
which of the two rules fired. -/
theorem C8_report_reason_constant (ft : String → Finset String) (title : String)
    (arr : List Cand) :
    ∀ r ∈ (processGroup ft title arr).2, r.reason = "HAMMING<=3 or JACCARD>=0.98" := by
  intro r hr
  unfold processGroup at hr
  by_cases hlen : arr.length = 1
  · rw [if_pos hlen] at hr
    simp at hr
  · rw [if_neg hlen] at hr
    cases hs : sortByLenDesc arr with
    | nil =>
      rw [hs] at hr
      simp at hr
    | cons canonical rest =>
      rw [hs] at hr
      dsimp only at hr
      split at hr
      · simp at hr
      · rw [List.mem_singleton] at hr
        subst hr
        rfl

/-- Witness for C8 at the concrete fingerprint-rule group. -/
theorem C8_report_reason_constant_witness :
    (GroupReport.mk "TA" [candA1.path] [candA2.path] reasonStr).reason
      = "HAMMING<=3 or JACCARD>=0.98" :=
  C8_report_reason_constant fileTokensA "TA" [candA1, candA2]
    (GroupReport.mk "TA" [candA1.path] [candA2.path] reasonStr)
    (by simp [procA_eval])

end Accord07
